import Mathlib

/-!
Verification of the MVCC engine in mvcc.py (multi-version key-value store with
snapshot-isolated transactions and optimistic commit validation).

The embedding translates the Python classes directly:
  VersionedValue, VersionStore, Transaction, TransactionManager.
Python dictionaries are modelled as association lists with unique keys
(insertion-ordered, as Python dicts are); Python None is a value of the payload
type PyVal, so that a stored None and an absent key produce the same result at
the read interface, exactly as in the source.  Wall-clock times (time.time(),
datetime.now()) are opaque Nat parameters threaded into the operations that
stamp them; no correctness logic consults them.
-/

set_option linter.unusedVariables false

/-- Payload type of the store.  Python values are dynamically typed; the engine
only ever compares them with "is not None", so the embedding distinguishes the
None payload from integer and string payloads. -/
inductive PyVal where
  | none : PyVal
  | int : Int → PyVal
  | str : String → PyVal
deriving DecidableEq, Repr

/-- Association-list lookup, modelling Python dict access with .get. -/
def alGet? {β : Type} : List (String × β) → String → Option β
  | [], _ => Option.none
  | (a, b) :: t, k => if k = a then some b else alGet? t k

/-- Lookup with a default, modelling dict.get(key, default). -/
def alGetD {β : Type} (m : List (String × β)) (k : String) (d : β) : β :=
  (alGet? m k).getD d

/-- Store under a key, modelling dict assignment: replaces the value in place if
the key is present, otherwise appends the new key at the end (Python dicts keep
insertion order). -/
def alSet {β : Type} : List (String × β) → String → β → List (String × β)
  | [], k, v => [(k, v)]
  | (a, b) :: t, k, v => if k = a then (k, v) :: t else (a, b) :: alSet t k v

/-- Key removal, modelling del dict[key] (keys are unique in a dict). -/
def alErase {β : Type} : List (String × β) → String → List (String × β)
  | [], _ => []
  | (a, b) :: t, k => if k = a then t else (a, b) :: alErase t k

/-- Same helpers for the manager's transactions dict, keyed by integer tx ids. -/
def txGet? {β : Type} : List (Nat × β) → Nat → Option β
  | [], _ => Option.none
  | (a, b) :: t, k => if k = a then some b else txGet? t k

/-- Store under a tx id, modelling dict assignment. -/
def txSet {β : Type} : List (Nat × β) → Nat → β → List (Nat × β)
  | [], k, v => [(k, v)]
  | (a, b) :: t, k, v => if k = a then (k, v) :: t else (a, b) :: txSet t k v

/-- Tx-id removal, modelling del dict[tx_id]. -/
def txErase {β : Type} : List (Nat × β) → Nat → List (Nat × β)
  | [], _ => []
  | (a, b) :: t, k => if k = a then t else (a, b) :: txErase t k

/-- VersionedValue: a single version of a value (mvcc.py lines 12-21).  The
timestamp is wall-clock observability data, modelled as an opaque Nat. -/
structure VersionedValue where
  value : PyVal
  version_id : Nat
  timestamp : Nat
deriving DecidableEq, Repr

/-- VersionStore state (mvcc.py lines 24-31): per-key version lists
(defaultdict(list)), the global version counter, and the GC run counter.
The threading lock has no content in a sequential embedding. -/
structure VersionStore where
  versions : List (String × List VersionedValue)
  version_counter : Nat
  gc_runs : Nat
deriving DecidableEq, Repr

/-- VersionStore.__init__. -/
def VersionStore.init : VersionStore :=
  { versions := [], version_counter := 0, gc_runs := 0 }

/-- VersionStore.write (lines 34-40): increment the counter, append a fresh
VersionedValue with the new id to the key's list, return the new id. -/
def VersionStore.write (s : VersionStore) (key : String) (value : PyVal) (now : Nat) :
    VersionStore × Nat :=
  let newCounter := s.version_counter + 1
  let new_version : VersionedValue := ⟨value, newCounter, now⟩
  ({ s with
      version_counter := newCounter,
      versions := alSet s.versions key (alGetD s.versions key [] ++ [new_version]) },
   newCounter)

/-- VersionStore.read (lines 42-50): scan the key's list newest-to-oldest and
return the first value whose id is at most the snapshot; Python returns None
when nothing qualifies, and PyVal.none is that same None. -/
def VersionStore.read (s : VersionStore) (key : String) (snapshot_version : Nat) : PyVal :=
  match (alGetD s.versions key []).reverse.find?
      (fun v => decide (v.version_id ≤ snapshot_version)) with
  | some v => v.value
  | Option.none => PyVal.none

/-- VersionStore.get_current_version (lines 52-54). -/
def VersionStore.get_current_version (s : VersionStore) : Nat :=
  s.version_counter

/-- VersionStore.get_all_versions (lines 56-58). -/
def VersionStore.get_all_versions (s : VersionStore) (key : String) : List VersionedValue :=
  alGetD s.versions key []

/-- Transaction status: 'active', 'committed' or 'aborted'. -/
inductive TxStatus where
  | active : TxStatus
  | committed : TxStatus
  | aborted : TxStatus
deriving DecidableEq, Repr

/-- Transaction state (mvcc.py lines 61-71).  The read set maps a key to the
pair (version_id, value); the recorded version_id is Python None or an int,
hence Option Nat here.  start_time and end_time are opaque clock stamps. -/
structure Transaction where
  tx_id : Nat
  snapshot_version : Nat
  read_set : List (String × (Option Nat × PyVal))
  write_set : List (String × PyVal)
  status : TxStatus
  start_time : Nat
  end_time : Option Nat
deriving DecidableEq, Repr

/-- Transaction.read (lines 73-76): record (version_id, value) in the read set.
The Python method also returns the value; the caller in the embedding reads it
from its own binding. -/
def Transaction.read (tx : Transaction) (key : String) (value : PyVal)
    (version_id : Option Nat) : Transaction :=
  { tx with read_set := alSet tx.read_set key (version_id, value) }

/-- Transaction.write (lines 78-80): buffer a write. -/
def Transaction.write (tx : Transaction) (key : String) (value : PyVal) : Transaction :=
  { tx with write_set := alSet tx.write_set key value }

/-- Transaction.commit (lines 82-85): mark committed and stamp end_time. -/
def Transaction.commit (tx : Transaction) (now : Nat) : Transaction :=
  { tx with status := TxStatus.committed, end_time := some now }

/-- Transaction.abort (lines 87-90): mark aborted and stamp end_time. -/
def Transaction.abort (tx : Transaction) (now : Nat) : Transaction :=
  { tx with status := TxStatus.aborted, end_time := some now }

/-- Transaction.duration_ms (lines 92-96). -/
def Transaction.duration_ms (tx : Transaction) : Nat :=
  match tx.end_time with
  | some e => (e - tx.start_time) * 1000
  | Option.none => 0

/-- TransactionManager state (mvcc.py lines 168-175): the referenced store, the
live-transaction dict, the tx id counter, commit/abort counters and latencies. -/
structure TransactionManager where
  version_store : VersionStore
  transactions : List (Nat × Transaction)
  tx_counter : Nat
  committed_count : Nat
  aborted_count : Nat
  latencies : List Nat
deriving DecidableEq, Repr

/-- TransactionManager.__init__. -/
def TransactionManager.init (version_store : VersionStore) : TransactionManager :=
  { version_store := version_store, transactions := [], tx_counter := 0,
    committed_count := 0, aborted_count := 0, latencies := [] }

/-- TransactionManager.begin_transaction (lines 177-187): new tx id, snapshot
the current counter, insert an active Transaction into the live set. -/
def TransactionManager.begin_transaction (m : TransactionManager) (now : Nat) :
    TransactionManager × Nat :=
  let tx_id := m.tx_counter + 1
  let snapshot := m.version_store.get_current_version
  let tx : Transaction :=
    { tx_id := tx_id, snapshot_version := snapshot, read_set := [], write_set := [],
      status := TxStatus.active, start_time := now, end_time := Option.none }
  ({ m with tx_counter := tx_id, transactions := txSet m.transactions tx_id tx }, tx_id)

/-- TransactionManager.read (lines 189-210): write-buffer hit first; otherwise a
snapshot read of the store; a non-None result is recorded into the read set
together with the version id found by scanning the key's list for the largest
id at most the snapshot.  An unknown tx id is a Python KeyError, hence Option. -/
def TransactionManager.read (m : TransactionManager) (tx_id : Nat) (key : String) :
    Option (TransactionManager × PyVal) :=
  match txGet? m.transactions tx_id with
  | Option.none => Option.none
  | some tx =>
    match alGet? tx.write_set key with
    | some v => some (m, v)
    | Option.none =>
      let value := m.version_store.read key tx.snapshot_version
      if value ≠ PyVal.none then
        let read_version := ((m.version_store.get_all_versions key).reverse.find?
            (fun v => decide (v.version_id ≤ tx.snapshot_version))).map VersionedValue.version_id
        let tx2 := tx.read key value read_version
        some ({ m with transactions := txSet m.transactions tx_id tx2 }, value)
      else
        some (m, PyVal.none)

/-- TransactionManager.write (lines 212-215): buffer the write in the tx. -/
def TransactionManager.write (m : TransactionManager) (tx_id : Nat) (key : String)
    (value : PyVal) : Option TransactionManager :=
  match txGet? m.transactions tx_id with
  | Option.none => Option.none
  | some tx =>
    some { m with transactions := txSet m.transactions tx_id (tx.write key value) }

/-- Validation test of one read-set entry (commit, lines 222-228): the entry
conflicts when the key's list is non-empty, the recorded version is not None,
and the last stored id is strictly newer than the recorded one. -/
def conflictsAt (s : VersionStore) (e : String × (Option Nat × PyVal)) : Bool :=
  match (alGetD s.versions e.1 []).getLast?, e.2.1 with
  | some last, some read_version => decide (read_version < last.version_id)
  | _, _ => false

/-- Fold of VersionStore.write over a write set, modelling the apply loop of
commit (lines 236-238). -/
def VersionStore.applyWrites (s : VersionStore) (ws : List (String × PyVal)) (now : Nat) :
    VersionStore :=
  ws.foldl (fun st kv => (st.write kv.1 kv.2 now).1) s

/-- TransactionManager.commit (lines 217-244): validate every read-set entry
against the store; on a conflict mark the tx aborted, count it, record its
latency, delete it from the live set and return False; otherwise apply every
buffered write through the store, mark the tx committed, count it, record its
latency, delete it and return True. -/
def TransactionManager.commit (m : TransactionManager) (tx_id : Nat) (now : Nat) :
    Option (TransactionManager × Bool) :=
  match txGet? m.transactions tx_id with
  | Option.none => Option.none
  | some tx =>
    if tx.read_set.any (fun e => conflictsAt m.version_store e) then
      some ({ m with
                aborted_count := m.aborted_count + 1,
                latencies := m.latencies ++ [(tx.abort now).duration_ms],
                transactions := txErase m.transactions tx_id }, false)
    else
      some ({ m with
                version_store := m.version_store.applyWrites tx.write_set now,
                committed_count := m.committed_count + 1,
                latencies := m.latencies ++ [(tx.commit now).duration_ms],
                transactions := txErase m.transactions tx_id }, true)

/-- One key's pass of garbage_collect (lines 116-137): identify the newest
version visible at min_snapshot and keep exactly that version and every version
strictly newer than min_snapshot. -/
def gcKey (min_snapshot : Nat) (versions : List VersionedValue) : List VersionedValue :=
  let visible_version := versions.reverse.find? (fun v => decide (v.version_id ≤ min_snapshot))
  versions.filter (fun v =>
    decide (visible_version = some v) || decide (min_snapshot < v.version_id))

/-- The per-key loop of garbage_collect (lines 116-140).  A Python dict has
unique keys and the loop body touches only the key it is visiting, so the loop
processes the entries independently: an empty list is skipped (and kept), an
entry whose filtered list is empty is deleted, every other entry is replaced by
its filtered list; the collected count accumulates the removed versions. -/
def gcEntries (min_snapshot : Nat) :
    List (String × List VersionedValue) → List (String × List VersionedValue) × Nat
  | [] => ([], 0)
  | (k, vs) :: rest =>
    let r := gcEntries min_snapshot rest
    if vs.isEmpty then ((k, vs) :: r.1, r.2)
    else
      let new_versions := gcKey min_snapshot vs
      if new_versions.isEmpty then (r.1, r.2 + (vs.length - new_versions.length))
      else ((k, new_versions) :: r.1, r.2 + (vs.length - new_versions.length))

/-- Minimum of a non-empty list of snapshots (Python min over dict values). -/
def listMin : List Nat → Nat
  | [] => 0
  | x :: xs => xs.foldl Nat.min x

/-- TransactionManager.garbage_collect (lines 103-143): min_snapshot is the
current counter when no transaction is live, otherwise the least live snapshot;
each key is then pruned by the retention rule and gc_runs is bumped. -/
def TransactionManager.garbage_collect (m : TransactionManager) :
    TransactionManager × Nat :=
  let min_snapshot :=
    if m.transactions.isEmpty then m.version_store.get_current_version
    else listMin (m.transactions.map (fun p => p.2.snapshot_version))
  let r := gcEntries min_snapshot m.version_store.versions
  ({ m with version_store :=
      { m.version_store with versions := r.1, gc_runs := m.version_store.gc_runs + 1 } },
   r.2)

/-- Modelled from demo.py (demo_atomic_transfer, line 131): the client fetches
the live Transaction object out of the manager's dict and calls
Transaction.abort on it.  Python mutates the shared object in place, so the
entry in the live set itself becomes aborted; nothing removes it. -/
def manualAbort (m : TransactionManager) (tx_id : Nat) (now : Nat) :
    Option TransactionManager :=
  match txGet? m.transactions tx_id with
  | Option.none => Option.none
  | some tx =>
    some { m with transactions := txSet m.transactions tx_id (tx.abort now) }

/-- Invariant of the live set claimed by the spec: every transaction held in
the manager's transactions dict has status 'active'. -/
def AllActive (m : TransactionManager) : Prop :=
  ∀ p ∈ m.transactions, p.2.status = TxStatus.active

/-- Placeholder transaction used only to strip Option from lookups that are
proved to succeed in concrete scenarios. -/
def defaultTx : Transaction :=
  { tx_id := 0, snapshot_version := 0, read_set := [], write_set := [],
    status := TxStatus.active, start_time := 0, end_time := Option.none }

/-! ### Concrete scenario states (spec scenario S2 and friends), used to
witness the theorems below on executable inputs. -/

/-- Store with a single version: key t holds 1 at version 1 (scenario S2). -/
def storeS2 : VersionStore := (VersionStore.init.write "t" (PyVal.int 1) 0).1

/-- Scenario S2 mid-state: two transactions begun at snapshot 1, both have read
key t (recording version 1), and both have buffered a write of 0 to t. -/
def mgrS2 : TransactionManager :=
  let m0 := TransactionManager.init storeS2
  let m1 := (m0.begin_transaction 1).1
  let m2 := (m1.begin_transaction 2).1
  let m3 := ((m2.read 1 "t").getD (m2, PyVal.none)).1
  let m4 := ((m3.read 2 "t").getD (m3, PyVal.none)).1
  let m5 := (m4.write 1 "t" (PyVal.int 0)).getD m4
  (m5.write 2 "t" (PyVal.int 0)).getD m5

/-- Transaction 1 of scenario S2. -/
def tx1S2 : Transaction := (txGet? mgrS2.transactions 1).getD defaultTx

/-- Transaction 2 of scenario S2. -/
def tx2S2 : Transaction := (txGet? mgrS2.transactions 2).getD defaultTx

/-- Scenario S2 after transaction 1 committed successfully. -/
def mgrS2c : TransactionManager := ((mgrS2.commit 1 10).getD (mgrS2, false)).1

/-- Scenario S2 after transaction 2 subsequently failed its commit. -/
def mgrS2f : TransactionManager := ((mgrS2c.commit 2 11).getD (mgrS2c, true)).1

/-- Store with two versions of key k: 10 at version 1 and 20 at version 2. -/
def storeC1 : VersionStore :=
  ((VersionStore.init.write "k" (PyVal.int 10) 0).1.write "k" (PyVal.int 20) 0).1

/-- Manager over storeC1 with no live transactions. -/
def mgrC9 : TransactionManager := TransactionManager.init storeC1

/-- Manager with one live transaction that wrote key a without reading. -/
def mgrC8 : TransactionManager :=
  let m0 := TransactionManager.init VersionStore.init
  let m1 := (m0.begin_transaction 0).1
  (m1.write 1 "a" (PyVal.int 5)).getD m1

/-- The live transaction of mgrC8. -/
def txC8 : Transaction := (txGet? mgrC8.transactions 1).getD defaultTx

/-- Store whose key n holds the Python value None at version 1. -/
def storeC10 : VersionStore := (VersionStore.init.write "n" PyVal.none 0).1

/-- Manager over storeC10 with one live transaction at snapshot 1. -/
def mgrC10 : TransactionManager :=
  ((TransactionManager.init storeC10).begin_transaction 0).1

/-- The live transaction of mgrC10. -/
def txC10 : Transaction := (txGet? mgrC10.transactions 1).getD defaultTx

/-- Scenario S6: key x written at version 1, a transaction begun at snapshot 1,
then x written again at version 2 directly through the store. -/
def mgrS6 : TransactionManager :=
  let m0 := TransactionManager.init (VersionStore.init.write "x" (PyVal.int 1) 0).1
  let m1 := (m0.begin_transaction 0).1
  { m1 with version_store := (m1.version_store.write "x" (PyVal.int 2) 0).1 }

/-- The live transaction of mgrS6 (snapshot 1). -/
def txS6 : Transaction := (txGet? mgrS6.transactions 1).getD defaultTx

/-! ### Association-list lemmas -/

theorem txGet?_txErase_ne {β : Type} (m : List (Nat × β)) (k k2 : Nat) (h : k ≠ k2) :
    txGet? (txErase m k2) k = txGet? m k := by
  induction m with
  | nil => rfl
  | cons hd tl ih =>
    obtain ⟨a, b⟩ := hd
    by_cases hk : k2 = a
    · subst hk
      simp [txErase, txGet?, h]
    · by_cases hk2 : k = a
      · subst hk2
        simp [txErase, txGet?, hk]
      · simp [txErase, txGet?, hk, hk2, ih]

theorem alGet?_mem {β : Type} (m : List (String × β)) (k : String) (b : β)
    (h : alGet? m k = some b) : (k, b) ∈ m := by
  induction m with
  | nil => simp [alGet?] at h
  | cons hd tl ih =>
    obtain ⟨a, c⟩ := hd
    by_cases hk : k = a
    · subst hk
      simp [alGet?] at h
      simp [h]
    · simp [alGet?, hk] at h
      exact List.mem_cons_of_mem _ (ih h)

theorem alGet?_eq_none_of_not_mem {β : Type} (m : List (String × β)) (k : String)
    (h : k ∉ m.map Prod.fst) : alGet? m k = Option.none := by
  induction m with
  | nil => rfl
  | cons hd tl ih =>
    obtain ⟨a, c⟩ := hd
    simp only [List.map_cons, List.mem_cons] at h
    push_neg at h
    simp [alGet?, h.1, ih h.2]

theorem alGet?_alSet_self {β : Type} (m : List (String × β)) (k : String) (v : β) :
    alGet? (alSet m k v) k = some v := by
  induction m with
  | nil => simp [alSet, alGet?]
  | cons hd tl ih =>
    obtain ⟨a, b⟩ := hd
    by_cases hk : k = a
    · simp [alSet, alGet?, hk]
    · simp [alSet, alGet?, hk, ih]

theorem alGet?_alSet_ne {β : Type} (m : List (String × β)) (k k2 : String) (v : β)
    (h : k2 ≠ k) : alGet? (alSet m k v) k2 = alGet? m k2 := by
  induction m with
  | nil => simp [alSet, alGet?, h]
  | cons hd tl ih =>
    obtain ⟨a, b⟩ := hd
    by_cases hk : k = a
    · subst hk
      simp [alSet, alGet?, h]
    · by_cases hk2 : k2 = a
      · simp [alSet, alGet?, hk, hk2]
      · simp [alSet, alGet?, hk, hk2, ih]

theorem alGet?_map_val (f : List VersionedValue → List VersionedValue)
    (m : List (String × List VersionedValue)) (k : String) :
    alGet? (m.map (fun e => (e.1, f e.2))) k = (alGet? m k).map f := by
  induction m with
  | nil => rfl
  | cons hd tl ih =>
    obtain ⟨a, b⟩ := hd
    by_cases hk : k = a
    · simp [alGet?, hk]
    · simp [alGet?, hk, ih]

/-! ### find? lemmas for snapshot reads -/

theorem find_desc_max (S : Nat) (rl : List VersionedValue)
    (hs : rl.Pairwise (fun a b => b.version_id < a.version_id)) (v : VersionedValue)
    (hv : v ∈ rl) (hle : v.version_id ≤ S)
    (hmax : ∀ w ∈ rl, w.version_id ≤ S → w.version_id ≤ v.version_id) :
    rl.find? (fun w => decide (w.version_id ≤ S)) = some v := by
  induction rl with
  | nil => cases hv
  | cons a t ih =>
    rw [List.pairwise_cons] at hs
    by_cases ha : a.version_id ≤ S
    · have hva : v = a := by
        rcases List.mem_cons.mp hv with h | h
        · exact h
        · exact absurd (hmax a (List.mem_cons_self a t) ha)
            (Nat.not_le.mpr (hs.1 v h))
      rw [hva]
      simp [List.find?, ha]
    · have hvt : v ∈ t := by
        rcases List.mem_cons.mp hv with h | h
        · exact absurd (h ▸ hle) ha
        · exact h
      have : t.find? (fun w => decide (w.version_id ≤ S)) = some v :=
        ih hs.2 hvt (fun w hw hwle => hmax w (List.mem_cons_of_mem a hw) hwle)
      simp [List.find?, ha, this]

/-! ### VersionStore.write and applyWrites lemmas -/

theorem write_counter (s : VersionStore) (k : String) (v : PyVal) (now : Nat) :
    (s.write k v now).1.version_counter = s.version_counter + 1 := rfl

theorem write_versions_self (s : VersionStore) (k : String) (v : PyVal) (now : Nat) :
    alGetD (s.write k v now).1.versions k []
      = alGetD s.versions k [] ++ [⟨v, s.version_counter + 1, now⟩] := by
  simp [VersionStore.write, alGetD, alGet?_alSet_self]

theorem write_versions_ne (s : VersionStore) (k k2 : String) (v : PyVal) (now : Nat)
    (h : k2 ≠ k) :
    alGetD (s.write k v now).1.versions k2 [] = alGetD s.versions k2 [] := by
  simp [VersionStore.write, alGetD, alGet?_alSet_ne _ _ _ _ h]

theorem applyWrites_counter_mono (ws : List (String × PyVal)) (s : VersionStore) (now : Nat) :
    s.version_counter ≤ (s.applyWrites ws now).version_counter := by
  induction ws generalizing s with
  | nil => exact Nat.le_refl _
  | cons hd tl ih =>
    calc s.version_counter
        ≤ (s.write hd.1 hd.2 now).1.version_counter := by
          rw [write_counter]; exact Nat.le_succ _
      _ ≤ _ := ih _

theorem applyWrites_getD_not_mem (ws : List (String × PyVal)) (s : VersionStore) (now : Nat)
    (k : String) (h : k ∉ ws.map Prod.fst) :
    alGetD (s.applyWrites ws now).versions k [] = alGetD s.versions k [] := by
  induction ws generalizing s with
  | nil => rfl
  | cons hd tl ih =>
    simp only [List.map_cons, List.mem_cons] at h
    push_neg at h
    have := ih (s.write hd.1 hd.2 now).1 h.2
    rw [VersionStore.applyWrites, List.foldl_cons] at *
    rw [this, write_versions_ne _ _ _ _ _ h.1]

theorem applyWrites_last_gt (ws : List (String × PyVal)) (s : VersionStore) (now : Nat)
    (k : String) (h : k ∈ ws.map Prod.fst) :
    ∃ last, (alGetD (s.applyWrites ws now).versions k []).getLast? = some last
      ∧ s.version_counter < last.version_id := by
  induction ws generalizing s with
  | nil => cases h
  | cons hd tl ih =>
    obtain ⟨k1, v1⟩ := hd
    rw [VersionStore.applyWrites, List.foldl_cons]
    by_cases ht : k ∈ tl.map Prod.fst
    · obtain ⟨last, h1, h2⟩ := ih (s.write k1 v1 now).1 ht
      refine ⟨last, h1, Nat.lt_of_le_of_lt ?_ h2⟩
      rw [write_counter]
      exact Nat.le_succ _
    · have hk : k = k1 := by
        simp only [List.map_cons, List.mem_cons] at h
        tauto
      subst hk
      have hgd : alGetD ((s.write k v1 now).1.applyWrites tl now).versions k []
          = alGetD (s.write k v1 now).1.versions k [] :=
        applyWrites_getD_not_mem tl _ now k ht
      rw [show ((s.write k v1 now).1.applyWrites tl now)
            = List.foldl (fun st kv => (st.write kv.1 kv.2 now).1) (s.write k v1 now).1 tl
          from rfl] at hgd
      rw [hgd, write_versions_self]
      exact ⟨⟨v1, s.version_counter + 1, now⟩, by simp, Nat.lt_succ_self _⟩

/-! ### Garbage-collection lemmas -/

theorem gcKey_nil (min_snapshot : Nat) : gcKey min_snapshot [] = [] := rfl

theorem gcKey_ne_nil (min_snapshot : Nat) (vs : List VersionedValue) (h : vs ≠ []) :
    gcKey min_snapshot vs ≠ [] ∧ (gcKey min_snapshot vs).getLast? = vs.getLast? := by
  obtain ⟨a, rl, hrl⟩ : ∃ a rl, vs.reverse = a :: rl := by
    cases hv : vs.reverse with
    | nil => exact absurd (List.reverse_eq_nil_iff.mp hv) h
    | cons a rl => exact ⟨a, rl, rfl⟩
  have hlast : vs.getLast? = some a := by
    rw [← List.head?_reverse, hrl, List.head?_cons]
  have hpa : (decide (((a :: rl).find? fun v => decide (v.version_id ≤ min_snapshot)) = some a)
      || decide (min_snapshot < a.version_id)) = true := by
    by_cases hm : a.version_id ≤ min_snapshot
    · simp [List.find?, hm]
    · simp [Nat.lt_of_not_le hm]
  have hrev : (gcKey min_snapshot vs).reverse
      = a :: (rl.filter (fun v =>
          decide (((a :: rl).find? fun v => decide (v.version_id ≤ min_snapshot)) = some v)
          || decide (min_snapshot < v.version_id))) := by
    rw [gcKey]
    rw [← List.filter_reverse, hrl, List.filter_cons, if_pos hpa]
  constructor
  · intro hn
    rw [hn] at hrev
    simp at hrev
  · rw [← List.head?_reverse, hrev, List.head?_cons, hlast]

theorem gcEntries_fst (min_snapshot : Nat) (vm : List (String × List VersionedValue)) :
    (gcEntries min_snapshot vm).1 = vm.map (fun e => (e.1, gcKey min_snapshot e.2)) := by
  induction vm with
  | nil => rfl
  | cons hd tl ih =>
    obtain ⟨k, vs⟩ := hd
    by_cases hvs : vs.isEmpty
    · have : vs = [] := List.isEmpty_iff.mp hvs
      subst this
      simp [gcEntries, ih, gcKey_nil]
    · have hne : vs ≠ [] := fun hc => hvs (by simp [hc])
      have hgc := (gcKey_ne_nil min_snapshot vs hne).1
      have hgcE : (gcKey min_snapshot vs).isEmpty = false := by
        cases hg : gcKey min_snapshot vs with
        | nil => exact absurd hg hgc
        | cons x xs => rfl
      simp [gcEntries, hvs, hgcE, ih]

theorem listMin_le_foldl (xs : List Nat) (a : Nat) : xs.foldl Nat.min a ≤ a := by
  induction xs generalizing a with
  | nil => exact Nat.le_refl _
  | cons x t ih =>
    rw [List.foldl_cons]
    exact Nat.le_trans (ih (Nat.min a x)) (Nat.min_le_left _ _)

theorem listMin_le_mem (xs : List Nat) (a x : Nat) (h : x ∈ xs) :
    xs.foldl Nat.min a ≤ x := by
  induction xs generalizing a with
  | nil => cases h
  | cons y t ih =>
    rw [List.foldl_cons]
    rcases List.mem_cons.mp h with rfl | hx
    · exact Nat.le_trans (listMin_le_foldl t _) (Nat.min_le_right _ _)
    · exact ih _ hx

theorem listMin_le (xs : List Nat) (x : Nat) (h : x ∈ xs) : listMin xs ≤ x := by
  cases xs with
  | nil => cases h
  | cons y t =>
    rw [listMin]
    rcases List.mem_cons.mp h with rfl | hx
    · exact listMin_le_foldl t x
    · exact listMin_le_mem t y x hx

theorem find_filter_aux (S min_snapshot : Nat) (h : min_snapshot ≤ S) :
    ∀ (rl : List VersionedValue) (vis : Option VersionedValue),
      vis = rl.find? (fun v => decide (v.version_id ≤ min_snapshot)) →
      (rl.filter (fun v => decide (vis = some v) || decide (min_snapshot < v.version_id))).find?
          (fun v => decide (v.version_id ≤ S))
        = rl.find? (fun v => decide (v.version_id ≤ S)) := by
  intro rl
  induction rl with
  | nil => intro vis hvis; rfl
  | cons a t ih =>
    intro vis hvis
    by_cases hS : a.version_id ≤ S
    · have hpa : (decide (vis = some a) || decide (min_snapshot < a.version_id)) = true := by
        by_cases hm : min_snapshot < a.version_id
        · simp [hm]
        · have ham : a.version_id ≤ min_snapshot := Nat.le_of_not_lt hm
          rw [hvis]
          simp [List.find?, ham]
      rw [List.filter_cons, if_pos hpa]
      simp [List.find?, hS]
    · have ham : min_snapshot < a.version_id :=
        Nat.lt_of_le_of_lt h (Nat.lt_of_not_le hS)
      have hpa : (decide (vis = some a) || decide (min_snapshot < a.version_id)) = true := by
        simp [ham]
      have hvt : vis = t.find? (fun v => decide (v.version_id ≤ min_snapshot)) := by
        rw [hvis]
        simp [List.find?, Nat.not_le.mpr ham]
      rw [List.filter_cons, if_pos hpa]
      have h1 : (List.find? (fun v => decide (v.version_id ≤ S))
          (a :: List.filter (fun v => decide (vis = some v)
            || decide (min_snapshot < v.version_id)) t))
          = (List.filter (fun v => decide (vis = some v)
            || decide (min_snapshot < v.version_id)) t).find?
              (fun v => decide (v.version_id ≤ S)) := by
        simp [List.find?, hS]
      rw [h1, ih vis hvt]
      simp [List.find?, hS]

theorem gcKey_read (S min_snapshot : Nat) (h : min_snapshot ≤ S) (vs : List VersionedValue) :
    (gcKey min_snapshot vs).reverse.find? (fun v => decide (v.version_id ≤ S))
      = vs.reverse.find? (fun v => decide (v.version_id ≤ S)) := by
  rw [gcKey, ← List.filter_reverse]
  exact find_filter_aux S min_snapshot h vs.reverse _ rfl

theorem find_of_all_le (S : Nat) (l : List VersionedValue)
    (h : ∀ v ∈ l, v.version_id ≤ S) :
    l.reverse.find? (fun v => decide (v.version_id ≤ S)) = l.getLast? := by
  cases hrl : l.reverse with
  | nil =>
    have : l = [] := List.reverse_eq_nil_iff.mp hrl
    subst this
    rfl
  | cons a rl =>
    have hmem : a ∈ l := by
      rw [← List.mem_reverse, hrl]; exact List.mem_cons_self _ _
    have hlast : l.getLast? = some a := by
      rw [← List.head?_reverse, hrl, List.head?_cons]
    rw [hlast]
    simp [List.find?, h a hmem]

theorem txGet?_mem {β : Type} (m : List (Nat × β)) (k : Nat) (b : β)
    (h : txGet? m k = some b) : (k, b) ∈ m := by
  induction m with
  | nil => simp [txGet?] at h
  | cons hd tl ih =>
    obtain ⟨a, c⟩ := hd
    by_cases hk : k = a
    · subst hk
      simp [txGet?] at h
      simp [h]
    · simp [txGet?, hk] at h
      exact List.mem_cons_of_mem _ (ih h)

theorem txSet_mem {β : Type} (m : List (Nat × β)) (k : Nat) (v : β) (p : Nat × β)
    (h : p ∈ txSet m k v) : p ∈ m ∨ p = (k, v) := by
  induction m with
  | nil => simp [txSet] at h; right; exact h
  | cons hd tl ih =>
    obtain ⟨a, c⟩ := hd
    by_cases hk : k = a
    · rw [txSet, if_pos hk] at h
      rcases List.mem_cons.mp h with h1 | h1
      · right; exact h1
      · left; exact List.mem_cons_of_mem _ h1
    · rw [txSet, if_neg hk] at h
      rcases List.mem_cons.mp h with h1 | h1
      · left; exact h1 ▸ List.mem_cons_self _ _
      · rcases ih h1 with h2 | h2
        · left; exact List.mem_cons_of_mem _ h2
        · right; exact h2

theorem txErase_subset {β : Type} (m : List (Nat × β)) (k : Nat) (p : Nat × β)
    (h : p ∈ txErase m k) : p ∈ m := by
  induction m with
  | nil => simp [txErase] at h
  | cons hd tl ih =>
    obtain ⟨a, c⟩ := hd
    by_cases hk : k = a
    · rw [txErase, if_pos hk] at h
      exact List.mem_cons_of_mem _ h
    · rw [txErase, if_neg hk] at h
      rcases List.mem_cons.mp h with h1 | h1
      · exact h1 ▸ List.mem_cons_self _ _
      · exact List.mem_cons_of_mem _ (ih h1)

/-- The validation test of one read-set entry, spelled out: an entry conflicts
exactly when its recorded version is defined, the key's sequence is non-empty,
and the id of the last (newest) stored version strictly exceeds the recorded
one. -/
theorem conflictsAt_iff (s : VersionStore) (e : String × (Option Nat × PyVal)) :
    conflictsAt s e = true
      ↔ ∃ rv last, e.2.1 = some rv
          ∧ (s.get_all_versions e.1).getLast? = some last
          ∧ rv < last.version_id := by
  rw [conflictsAt, VersionStore.get_all_versions]
  cases h1 : (alGetD s.versions e.1 []).getLast? with
  | none => simp
  | some last =>
    cases h2 : e.2.1 with
    | none => simp
    | some rv =>
      simp only [Option.some.injEq]
      constructor
      · intro h
        exact ⟨rv, last, rfl, rfl, by simpa using h⟩
      · rintro ⟨rv2, last2, hrv, hlast, hlt⟩
        subst hrv; subst hlast
        simpa using hlt

/-! ### Claim theorems -/

/-- C1: for every key and snapshot, VersionStore.read returns the value of the
highest-id version of the key whose version_id is at most the snapshot, and
returns none when no such version exists — in particular when the key has never
been written (its sequence is empty) or every version id exceeds the snapshot.
The version sequence of a key has strictly increasing ids (the store invariant
stated in the data model). -/
theorem read_returns_highest_visible (s : VersionStore) (key : String) (snap : Nat)
    (hsort : (s.get_all_versions key).Pairwise (fun a b => a.version_id < b.version_id)) :
    ((∀ w ∈ s.get_all_versions key, ¬ w.version_id ≤ snap) → s.read key snap = PyVal.none)
  ∧ (∀ v ∈ s.get_all_versions key, v.version_id ≤ snap →
      (∀ w ∈ s.get_all_versions key, w.version_id ≤ snap → w.version_id ≤ v.version_id) →
      s.read key snap = v.value) := by
  have hrw : alGetD s.versions key [] = s.get_all_versions key := rfl
  constructor
  · intro hnone
    have hfind : (s.get_all_versions key).reverse.find?
        (fun v => decide (v.version_id ≤ snap)) = Option.none := by
      rw [List.find?_eq_none]
      intro x hx
      simp [hnone x (List.mem_reverse.mp hx)]
    rw [VersionStore.read, hrw, hfind]
  · intro v hv hle hmax
    have hdesc : (s.get_all_versions key).reverse.Pairwise
        (fun a b => b.version_id < a.version_id) := by
      rw [List.pairwise_reverse]
      exact hsort
    have hfind : (s.get_all_versions key).reverse.find?
        (fun w => decide (w.version_id ≤ snap)) = some v :=
      find_desc_max snap _ hdesc v (List.mem_reverse.mpr hv) hle
        (fun w hw hwle => hmax w (List.mem_reverse.mp hw) hwle)
    rw [VersionStore.read, hrw, hfind]

theorem read_returns_highest_visible_witness :
    storeC1.read "k" 1 = PyVal.int 10 :=
  (read_returns_highest_visible storeC1 "k" 1 (by decide)).2
    ⟨PyVal.int 10, 1, 0⟩ (by decide) (by decide) (by decide)

/-- C4: a failed commit leaves the Version Store untouched: the failure branch
of commit returns before the apply loop, so no buffered write is appended and
the global version counter is not incremented. -/
theorem aborted_commit_leaves_store_unchanged (m m2 : TransactionManager)
    (tx_id now : Nat) (h : m.commit tx_id now = some (m2, false)) :
    m2.version_store = m.version_store := by
  cases hget : txGet? m.transactions tx_id with
  | none =>
    simp only [TransactionManager.commit, hget] at h
    exact absurd h (by simp)
  | some tx =>
    simp only [TransactionManager.commit, hget] at h
    cases hA : tx.read_set.any (fun e => conflictsAt m.version_store e) with
    | true =>
      rw [if_pos hA] at h
      simp only [Option.some.injEq, Prod.mk.injEq] at h
      rw [← h.1]
    | false =>
      rw [if_neg (by simp [hA])] at h
      simp at h

theorem aborted_commit_leaves_store_unchanged_witness :
    mgrS2f.version_store = mgrS2c.version_store :=
  aborted_commit_leaves_store_unchanged mgrS2c mgrS2f 2 11 (by decide)

/-- C6: within a live transaction, a key present in the write set is answered
from the buffer: the manager state is returned unchanged (no read-set entry,
no store consultation is reflected in the state) with the buffered value; and
when the key misses the buffer and the store read resolves to none, the
manager returns none and again leaves the state unchanged. -/
theorem read_your_writes (m : TransactionManager) (tx_id : Nat) (key : String)
    (tx : Transaction) (h : txGet? m.transactions tx_id = some tx) :
    (∀ v, alGet? tx.write_set key = some v → m.read tx_id key = some (m, v))
  ∧ (alGet? tx.write_set key = Option.none →
      m.version_store.read key tx.snapshot_version = PyVal.none →
      m.read tx_id key = some (m, PyVal.none)) := by
  constructor
  · intro v hv
    simp only [TransactionManager.read, h, hv]
  · intro hw hr
    simp only [TransactionManager.read, h, hw, hr]
    simp

theorem read_your_writes_witness :
    mgrS2.read 1 "t" = some (mgrS2, PyVal.int 0) :=
  (read_your_writes mgrS2 1 "t" tx1S2 (by decide)).1 (PyVal.int 0) (by decide)

/-- C10: a stored value of None is indistinguishable from an absent key.  When
the version of a key visible at the transaction's snapshot carries the value
None, the store read returns none just as it does for any key absent from the
mapping, and the manager-level read returns none leaving the manager state
unchanged — no read-set entry is recorded, so the observation is never
validated at commit. -/
theorem stored_none_reads_as_absent (m : TransactionManager) (tx_id : Nat)
    (key : String) (tx : Transaction) (v : VersionedValue)
    (h : txGet? m.transactions tx_id = some tx)
    (hw : alGet? tx.write_set key = Option.none)
    (hv : (m.version_store.get_all_versions key).reverse.find?
        (fun w => decide (w.version_id ≤ tx.snapshot_version)) = some v)
    (hnone : v.value = PyVal.none) :
    m.version_store.read key tx.snapshot_version = PyVal.none
  ∧ (∀ k2, alGet? m.version_store.versions k2 = Option.none →
      m.version_store.read k2 tx.snapshot_version = PyVal.none)
  ∧ m.read tx_id key = some (m, PyVal.none) := by
  have hread : m.version_store.read key tx.snapshot_version = PyVal.none := by
    rw [VersionStore.read,
      show alGetD m.version_store.versions key []
        = m.version_store.get_all_versions key from rfl, hv]
    exact hnone
  refine ⟨hread, ?_, ?_⟩
  · intro k2 hk2
    rw [VersionStore.read, alGetD, hk2]
    rfl
  · simp only [TransactionManager.read, h, hw, hread]
    simp

theorem stored_none_reads_as_absent_witness :
    mgrC10.read 1 "n" = some (mgrC10, PyVal.none) :=
  (stored_none_reads_as_absent mgrC10 1 "n" txC10 ⟨PyVal.none, 1, 0⟩
    (by decide) (by decide) (by decide) (by decide)).2.2

/-- C3: commit on a live transaction returns failure exactly when some read-set
entry has a defined observed version and the key's non-empty version sequence
ends in a strictly greater version_id; on failure the transaction object is
marked aborted, the aborted counter is incremented, its latency is appended and
it is removed from the live set; otherwise every write-set entry is applied to
the store in order, the transaction object is marked committed, the committed
counter is incremented, its latency is appended, it is removed from the live
set and commit returns success. -/
theorem commit_validation_and_effects (m : TransactionManager) (tx_id now : Nat)
    (tx : Transaction) (h : txGet? m.transactions tx_id = some tx) :
    ((m.commit tx_id now).map Prod.snd = some false
        ↔ ∃ e ∈ tx.read_set, ∃ rv last, e.2.1 = some rv
            ∧ (m.version_store.get_all_versions e.1).getLast? = some last
            ∧ rv < last.version_id)
  ∧ ((∃ e ∈ tx.read_set, conflictsAt m.version_store e = true) →
      (m.commit tx_id now = some ({ m with
          aborted_count := m.aborted_count + 1,
          latencies := m.latencies ++ [(tx.abort now).duration_ms],
          transactions := txErase m.transactions tx_id }, false)
        ∧ (tx.abort now).status = TxStatus.aborted))
  ∧ ((∀ e ∈ tx.read_set, conflictsAt m.version_store e = false) →
      (m.commit tx_id now = some ({ m with
          version_store := m.version_store.applyWrites tx.write_set now,
          committed_count := m.committed_count + 1,
          latencies := m.latencies ++ [(tx.commit now).duration_ms],
          transactions := txErase m.transactions tx_id }, true)
        ∧ (tx.commit now).status = TxStatus.committed)) := by
  have hiff : (tx.read_set.any (fun e => conflictsAt m.version_store e) = true)
      ↔ ∃ e ∈ tx.read_set, ∃ rv last, e.2.1 = some rv
          ∧ (m.version_store.get_all_versions e.1).getLast? = some last
          ∧ rv < last.version_id := by
    rw [List.any_eq_true]
    constructor
    · rintro ⟨e, he, hc⟩
      exact ⟨e, he, (conflictsAt_iff _ _).mp hc⟩
    · rintro ⟨e, he, hc⟩
      exact ⟨e, he, (conflictsAt_iff _ _).mpr hc⟩
  refine ⟨?_, ?_, ?_⟩
  · by_cases hA : tx.read_set.any (fun e => conflictsAt m.version_store e) = true
    · simp only [TransactionManager.commit, h, if_pos hA]
      exact iff_of_true rfl (hiff.mp hA)
    · simp only [TransactionManager.commit, h, if_neg hA]
      exact iff_of_false (by simp) (fun hc => hA (hiff.mpr hc))
  · intro hc
    have hA : tx.read_set.any (fun e => conflictsAt m.version_store e) = true :=
      List.any_eq_true.mpr hc
    exact ⟨by simp only [TransactionManager.commit, h, if_pos hA], rfl⟩
  · intro hc
    have hA : ¬ tx.read_set.any (fun e => conflictsAt m.version_store e) = true := by
      rw [List.any_eq_true]
      rintro ⟨e, he, hce⟩
      rw [hc e he] at hce
      exact Bool.false_ne_true hce
    exact ⟨by simp only [TransactionManager.commit, h, if_neg hA], rfl⟩

theorem commit_validation_and_effects_witness :
    (mgrS2c.commit 2 11).map Prod.snd = some false :=
  (commit_validation_and_effects mgrS2c 2 11 tx2S2 (by decide)).1.mpr
    ⟨("t", (some 1, PyVal.int 1)), by decide,
      1, ⟨PyVal.int 0, 2, 10⟩, by decide, by decide, by decide⟩

/-- C8: a live transaction with an empty read set always commits successfully,
whatever the current store contents: validation iterates over the read set and
cannot fail, every buffered write is applied (each key in the write set ends up
with a version strictly newer than the counter the manager saw before the
commit), so write-write conflicts on keys the transaction never read through
the manager are not detected. -/
theorem empty_read_set_commits (m : TransactionManager) (tx_id now : Nat)
    (tx : Transaction) (h : txGet? m.transactions tx_id = some tx)
    (hr : tx.read_set = []) :
    m.commit tx_id now = some ({ m with
        version_store := m.version_store.applyWrites tx.write_set now,
        committed_count := m.committed_count + 1,
        latencies := m.latencies ++ [(tx.commit now).duration_ms],
        transactions := txErase m.transactions tx_id }, true)
  ∧ ∀ k ∈ tx.write_set.map Prod.fst,
      ∃ last, ((m.version_store.applyWrites tx.write_set now).get_all_versions k).getLast?
          = some last ∧ m.version_store.version_counter < last.version_id := by
  constructor
  · have hA : ¬ tx.read_set.any (fun e => conflictsAt m.version_store e) = true := by
      rw [hr]
      simp
    simp only [TransactionManager.commit, h, if_neg hA]
  · intro k hk
    exact applyWrites_last_gt tx.write_set m.version_store now k hk

theorem empty_read_set_commits_witness :
    mgrC8.commit 1 3 = some ({ mgrC8 with
        version_store := mgrC8.version_store.applyWrites txC8.write_set 3,
        committed_count := mgrC8.committed_count + 1,
        latencies := mgrC8.latencies ++ [(txC8.commit 3).duration_ms],
        transactions := txErase mgrC8.transactions 1 }, true) :=
  (empty_read_set_commits mgrC8 1 3 txC8 (by decide) (by decide)).1

/-- C2: first-committer-wins.  Two live transactions begun at the same
snapshot have both read key k through the manager (each read set records a
defined observed version for k; the second transaction's observed version is,
as recording guarantees, at most the current global counter) and both buffer a
write to k.  If the first commit succeeds, the second commit then fails:
the first commit appended a version of k whose id exceeds the counter, so the
second transaction's validation of its read-set entry for k cannot pass. -/
theorem first_committer_wins (m m1 : TransactionManager) (t1 t2 now1 now2 : Nat)
    (tx1 tx2 : Transaction) (k : String) (r2 : Nat) (v2 : PyVal)
    (h1 : txGet? m.transactions t1 = some tx1)
    (h2 : txGet? m.transactions t2 = some tx2)
    (hne : t2 ≠ t1)
    (hsnap : tx1.snapshot_version = tx2.snapshot_version)
    (hw1 : k ∈ tx1.write_set.map Prod.fst)
    (hw2 : k ∈ tx2.write_set.map Prod.fst)
    (hr1 : ∃ r1 v1, alGet? tx1.read_set k = some (some r1, v1))
    (hr2 : alGet? tx2.read_set k = some (some r2, v2))
    (hr2le : r2 ≤ m.version_store.version_counter)
    (hc1 : m.commit t1 now1 = some (m1, true)) :
    ∃ m2, m1.commit t2 now2 = some (m2, false) := by
  simp only [TransactionManager.commit, h1] at hc1
  cases hA : tx1.read_set.any (fun e => conflictsAt m.version_store e) with
  | true =>
    rw [if_pos hA] at hc1
    simp at hc1
  | false =>
    rw [if_neg (by simp [hA])] at hc1
    simp only [Option.some.injEq, Prod.mk.injEq, and_true] at hc1
    have hm1s : m1.version_store = m.version_store.applyWrites tx1.write_set now1 := by
      rw [← hc1]
    have hm1t : m1.transactions = txErase m.transactions t1 := by
      rw [← hc1]
    have hget2 : txGet? m1.transactions t2 = some tx2 := by
      rw [hm1t, txGet?_txErase_ne m.transactions t2 t1 hne]
      exact h2
    obtain ⟨last, hlast, hgt⟩ :=
      applyWrites_last_gt tx1.write_set m.version_store now1 k hw1
    have hconf : conflictsAt m1.version_store (k, (some r2, v2)) = true := by
      rw [conflictsAt]
      simp only [hm1s, hlast]
      simp [Nat.lt_of_le_of_lt hr2le hgt]
    have hA2 : tx2.read_set.any (fun e => conflictsAt m1.version_store e) = true :=
      List.any_eq_true.mpr ⟨(k, (some r2, v2)), alGet?_mem _ _ _ hr2, hconf⟩
    refine ⟨{ m1 with
        aborted_count := m1.aborted_count + 1,
        latencies := m1.latencies ++ [(tx2.abort now2).duration_ms],
        transactions := txErase m1.transactions t2 }, ?_⟩
    simp only [TransactionManager.commit, hget2, if_pos hA2]

theorem first_committer_wins_witness :
    ∃ m2, mgrS2c.commit 2 11 = some (m2, false) :=
  first_committer_wins mgrS2 mgrS2c 1 2 10 11 tx1S2 tx2S2 "t" 1 (PyVal.int 1)
    (by decide) (by decide) (by decide) (by decide) (by decide) (by decide)
    ⟨1, PyVal.int 1, by decide⟩ (by decide) (by decide) (by decide)

/-- The per-key result of the GC loop: the list stored under any key after the
loop is exactly the gcKey filter of the list stored before (a missing key stays
missing since filtering the empty list yields the empty list). -/
theorem alGetD_gcEntries (min_snapshot : Nat) (vm : List (String × List VersionedValue))
    (k : String) :
    alGetD (gcEntries min_snapshot vm).1 k [] = gcKey min_snapshot (alGetD vm k []) := by
  rw [gcEntries_fst, alGetD, alGetD, alGet?_map_val (gcKey min_snapshot) vm k]
  cases alGet? vm k with
  | none => simp [gcKey_nil]
  | some vs => simp

theorem gcKey_getLast (min_snapshot : Nat) (vs : List VersionedValue) :
    (gcKey min_snapshot vs).getLast? = vs.getLast? := by
  cases hv : vs with
  | nil => rw [gcKey_nil]
  | cons a t => exact (gcKey_ne_nil min_snapshot (a :: t) (by simp)).2

theorem gcKey_subset (min_snapshot : Nat) (vs : List VersionedValue) (x : VersionedValue)
    (h : x ∈ gcKey min_snapshot vs) : x ∈ vs := by
  simp only [gcKey] at h
  exact (List.mem_filter.mp h).1

/-- C5: GC safety.  In any manager state whose stored version ids do not
exceed the global counter, garbage_collect preserves every snapshot read of
every live transaction: for each live transaction and each key, the store read
at that transaction's snapshot returns the same value after collection as
before.  The min snapshot protected by GC is at most each live snapshot, and
the retention rule keeps the version visible at the min snapshot together with
everything newer. -/
theorem gc_safety (m : TransactionManager)
    (hid : ∀ e ∈ m.version_store.versions, ∀ v ∈ e.2,
        v.version_id ≤ m.version_store.version_counter) :
    ∀ p ∈ m.transactions, ∀ k,
      (m.garbage_collect).1.version_store.read k p.2.snapshot_version
        = m.version_store.read k p.2.snapshot_version := by
  intro p hp k
  have hne : m.transactions.isEmpty = false := by
    cases hm : m.transactions with
    | nil => rw [hm] at hp; cases hp
    | cons a t => rfl
  have hgc : (m.garbage_collect).1.version_store.versions
      = (gcEntries (if m.transactions.isEmpty then m.version_store.get_current_version
          else listMin (m.transactions.map (fun q => q.2.snapshot_version)))
          m.version_store.versions).1 := rfl
  rw [hne] at hgc
  simp only [Bool.false_eq_true, if_false] at hgc
  have hle : listMin (m.transactions.map (fun q => q.2.snapshot_version))
      ≤ p.2.snapshot_version :=
    listMin_le _ _ (List.mem_map_of_mem _ hp)
  rw [VersionStore.read, VersionStore.read, hgc, alGetD_gcEntries,
    gcKey_read p.2.snapshot_version _ hle]

theorem gc_safety_witness :
    (mgrS6.garbage_collect).1.version_store.read "x" txS6.snapshot_version
      = mgrS6.version_store.read "x" txS6.snapshot_version :=
  gc_safety mgrS6 (by decide) (1, txS6) (by decide) "x"

/-- C9: when every stored version id is at most the global counter,
garbage_collect always keeps the newest version of every key: the key set of
the mapping is unchanged (the key-deletion branch never fires), the last
version of every key's sequence is unchanged, the counter is unchanged, and a
store read of any key at the current counter returns the same value after
collection as before. -/
theorem gc_retains_every_key (m : TransactionManager)
    (hid : ∀ e ∈ m.version_store.versions, ∀ v ∈ e.2,
        v.version_id ≤ m.version_store.version_counter) :
    ((m.garbage_collect).1.version_store.versions.map Prod.fst
        = m.version_store.versions.map Prod.fst)
  ∧ (∀ k, ((m.garbage_collect).1.version_store.get_all_versions k).getLast?
        = (m.version_store.get_all_versions k).getLast?)
  ∧ (m.garbage_collect).1.version_store.get_current_version
        = m.version_store.get_current_version
  ∧ (∀ k, (m.garbage_collect).1.version_store.read k
          ((m.garbage_collect).1.version_store.get_current_version)
        = m.version_store.read k m.version_store.get_current_version) := by
  have hgc : (m.garbage_collect).1.version_store.versions
      = (gcEntries (if m.transactions.isEmpty then m.version_store.get_current_version
          else listMin (m.transactions.map (fun q => q.2.snapshot_version)))
          m.version_store.versions).1 := rfl
  refine ⟨?_, ?_, rfl, ?_⟩
  · rw [hgc, gcEntries_fst, List.map_map]
    rfl
  · intro k
    rw [VersionStore.get_all_versions, VersionStore.get_all_versions, hgc,
      alGetD_gcEntries, gcKey_getLast]
  · intro k
    have hall : ∀ v ∈ alGetD m.version_store.versions k [],
        v.version_id ≤ m.version_store.get_current_version := by
      cases hk : alGet? m.version_store.versions k with
      | none => intro v hv; rw [alGetD, hk] at hv; cases hv
      | some vs =>
        intro v hv
        rw [alGetD, hk] at hv
        exact hid (k, vs) (alGet?_mem _ _ _ hk) v hv
    have hall2 : ∀ v ∈ gcKey (if m.transactions.isEmpty
          then m.version_store.get_current_version
          else listMin (m.transactions.map (fun q => q.2.snapshot_version)))
        (alGetD m.version_store.versions k []),
        v.version_id ≤ m.version_store.get_current_version :=
      fun v hv => hall v (gcKey_subset _ _ v hv)
    have hcnt : (m.garbage_collect).1.version_store.get_current_version
        = m.version_store.get_current_version := rfl
    rw [hcnt, VersionStore.read, VersionStore.read, hgc, alGetD_gcEntries,
      find_of_all_le _ _ hall2, find_of_all_le _ _ hall, gcKey_getLast]

theorem gc_retains_every_key_witness :
    (mgrC9.garbage_collect).1.version_store.read "k"
        ((mgrC9.garbage_collect).1.version_store.get_current_version)
      = mgrC9.version_store.read "k" mgrC9.version_store.get_current_version :=
  (gc_retains_every_key mgrC9 (by decide)).2.2.2 "k"

/-- C7 counterexample: the claim that a transaction is removed from the live
set at the moment its abort completes, so that no operation can observe a
non-active transaction there, is false on this code.  TransactionManager has
no abort operation; the only abort in the repository outside commit is
Transaction.abort called directly on the live object (demo.py line 131,
mgr.transactions[tx2].abort()).  Starting from a fresh manager, beginning
transaction 1 and performing exactly that abort leaves transaction 1 in the
live set with status aborted after the abort has completed. -/
theorem manual_abort_observable_in_live_set :
    ((manualAbort ((TransactionManager.init VersionStore.init).begin_transaction 0).1 1 1).bind
        (fun m => txGet? m.transactions 1)).map Transaction.status
      = some TxStatus.aborted := by decide

/-- C7 amended: the manager's own operations preserve the invariant that every
transaction in the live set is active — begin_transaction inserts an active
transaction, read and write update a live transaction without touching its
status, commit removes the transaction on both of its paths, and
garbage_collect leaves the live set untouched.  The original claim fails only
for Transaction.abort invoked directly on a stored object (the manager exposes
no abort), which marks the entry aborted but removes nothing. -/
theorem live_set_stays_active (m : TransactionManager) (now : Nat) (h : AllActive m) :
    AllActive (m.begin_transaction now).1
  ∧ (∀ tx_id key r, m.read tx_id key = some r → AllActive r.1)
  ∧ (∀ tx_id key v m2, m.write tx_id key v = some m2 → AllActive m2)
  ∧ (∀ tx_id r, m.commit tx_id now = some r → AllActive r.1)
  ∧ AllActive (m.garbage_collect).1 := by
  refine ⟨?_, ?_, ?_, ?_, ?_⟩
  · intro p hp
    rcases txSet_mem _ _ _ _ hp with h1 | h1
    · exact h p h1
    · rw [h1]
  · intro tx_id key r hr p hp
    cases hget : txGet? m.transactions tx_id with
    | none =>
      simp only [TransactionManager.read, hget] at hr
      exact Option.noConfusion hr
    | some tx =>
      simp only [TransactionManager.read, hget] at hr
      cases hws : alGet? tx.write_set key with
      | some v =>
        rw [hws] at hr
        simp only [Option.some.injEq] at hr
        rw [← hr] at hp
        exact h p hp
      | none =>
        rw [hws] at hr
        by_cases hv : m.version_store.read key tx.snapshot_version = PyVal.none
        · rw [if_neg (by simp [hv])] at hr
          simp only [Option.some.injEq] at hr
          rw [← hr] at hp
          exact h p hp
        · rw [if_pos (by simp [hv])] at hr
          simp only [Option.some.injEq] at hr
          rw [← hr] at hp
          rcases txSet_mem _ _ _ _ hp with h1 | h1
          · exact h p h1
          · rw [h1]
            exact h (tx_id, tx) (txGet?_mem _ _ _ hget)
  · intro tx_id key v m2 hw p hp
    cases hget : txGet? m.transactions tx_id with
    | none =>
      simp only [TransactionManager.write, hget] at hw
      exact Option.noConfusion hw
    | some tx =>
      simp only [TransactionManager.write, hget, Option.some.injEq] at hw
      rw [← hw] at hp
      rcases txSet_mem _ _ _ _ hp with h1 | h1
      · exact h p h1
      · rw [h1]
        exact h (tx_id, tx) (txGet?_mem _ _ _ hget)
  · intro tx_id r hr p hp
    cases hget : txGet? m.transactions tx_id with
    | none =>
      simp only [TransactionManager.commit, hget] at hr
      exact Option.noConfusion hr
    | some tx =>
      simp only [TransactionManager.commit, hget] at hr
      cases hA : tx.read_set.any (fun e => conflictsAt m.version_store e) with
      | true =>
        rw [if_pos hA] at hr
        simp only [Option.some.injEq] at hr
        rw [← hr] at hp
        exact h p (txErase_subset _ _ _ hp)
      | false =>
        rw [if_neg (by simp [hA])] at hr
        simp only [Option.some.injEq] at hr
        rw [← hr] at hp
        exact h p (txErase_subset _ _ _ hp)
  · intro p hp
    exact h p hp

theorem live_set_stays_active_witness :
    AllActive (mgrS2.begin_transaction 5).1 :=
  (live_set_stays_active mgrS2 5
    (by
      show ∀ p ∈ mgrS2.transactions, p.2.status = TxStatus.active
      decide)).1
